import Mathlib

/-!
Shallow embedding of the varint benchmark repository's codec code.

The repository sources are `src/nanolog.cpp` (the NanoLog nibble codec and
its `codec_descriptor`) and `src/varint.cpp` (the benchmark harness, of
which only `read_test_vector` is modelled here).  Machine integers are
`Nat` with explicit reduction mod `2 ^ 64`; byte buffers are `List Nat`
whose entries are byte values; the indeterminate memory that
`nanolog_decode` reads through its self-initialized cursor is a function
`Nat → Nat` giving the byte found at each offset.

`BufferUtils::pack` / `BufferUtils::unpack` and the `TwoNibbles` struct
come from `NanoLog/runtime/Packer.h`, which is not among the repository
sources; they are modelled from the spec (§4.6): a value is stored in its
minimal byte length, 1..8 bytes, determined by its highest set bit, written
little-endian with no padding, and the header byte's high nibble holds the
first value's length while the low nibble holds the second's.
-/

/-- The value of a `uint64_t` holding the natural number `v`. -/
def u64 (v : Nat) : Nat := v % 2 ^ 64

/-- Modelled from the spec: the minimal byte length (1..8, determined by
the highest set bit) in which `BufferUtils::pack` stores a 64-bit value
`w`.  `NanoLog/runtime/Packer.h` is not among the repository sources. -/
def byteLen (w : Nat) : Nat :=
  if w < 2 ^ 8 then 1
  else if w < 2 ^ 16 then 2
  else if w < 2 ^ 24 then 3
  else if w < 2 ^ 32 then 4
  else if w < 2 ^ 40 then 5
  else if w < 2 ^ 48 then 6
  else if w < 2 ^ 56 then 7
  else 8

/-- The length nibble `pack<uint64_t>` returns for an input value `v`. -/
def packLen (v : Nat) : Nat := byteLen (u64 v)

/-- `k` little-endian bytes of `w`, least significant byte first. -/
def leBytes : Nat → Nat → List Nat
  | _, 0 => []
  | w, k + 1 => w % 256 :: leBytes (w / 256) k

/-- Modelled from the spec: the byte image `pack<uint64_t>` writes for a
value `v` — its minimal-length little-endian bytes, no padding. -/
def packBytes (v : Nat) : List Nat := leBytes (u64 v) (packLen v)

/-- Value of a little-endian byte list (each entry taken mod 256). -/
def fromLE : List Nat → Nat
  | [] => 0
  | b :: bs => b % 256 + 256 * fromLE bs

/-- The loop of `nanolog_encode` (src/nanolog.cpp:44-58).  `off` is the
byte offset of the output cursor `out`, and `prior` gives the pre-existing
contents of the caller's output buffer: for a trailing singleton the code
assigns only `nibbles->first`, so the header byte's other nibble keeps the
buffer's prior contents. -/
def nanolog_encodeGo (prior : Nat → Nat) : List Nat → Nat → List Nat
  | [], _ => []
  | [a], off => (16 * packLen a + prior off % 16) :: packBytes a
  | a :: b :: rest, off =>
      (16 * packLen a + packLen b) ::
        (packBytes a ++ packBytes b ++
          nanolog_encodeGo prior rest (off + 1 + packLen a + packLen b))

/-- The bytes `nanolog_encode` (src/nanolog.cpp:37-61) writes to the
output buffer, starting at offset 0; pairs first, then the optional
trailing singleton. -/
def nanolog_encode (s : List Nat) (prior : Nat → Nat) : List Nat :=
  nanolog_encodeGo prior s 0

/-- The value `out - out_orig` that `nanolog_encode` returns: one header
byte plus the packed lengths, per pair and for the trailing singleton. -/
def nanolog_encodeRet : List Nat → Nat
  | [] => 0
  | [a] => 1 + packLen a
  | a :: b :: rest => 1 + packLen a + packLen b + nanolog_encodeRet rest

/-- `unpack<uint64_t>`: read `n` bytes little-endian, zero-extended, from
the memory `junk` at offset `pos` (modelled from the spec, Packer.h being
absent from the sources). -/
def readLE (junk : Nat → Nat) : Nat → Nat → Nat
  | _, 0 => 0
  | pos, n + 1 => junk pos % 256 + 256 * readLE junk (pos + 1) n

/-- The pair loop of `nanolog_decode` (src/nanolog.cpp:70-79).  The read
cursor `in` was initialized from itself (src/nanolog.cpp:68), never from
the `in_orig` parameter, so all reads go through the indeterminate memory
`junk`, starting at offset 0.  Returns the updated output buffer and the
final read offset. -/
def nanolog_decodePairs (junk : Nat → Nat) :
    Nat → Nat → Nat → List Nat → List Nat × Nat
  | 0, pos, _, out => (out, pos)
  | i + 1, pos, idx, out =>
      let h := junk pos % 256
      let n1 := h / 16
      let n2 := h % 16
      let v1 := readLE junk (pos + 1) n1
      let v2 := readLE junk (pos + 1 + n1) n2
      nanolog_decodePairs junk i (pos + 1 + n1 + n2) (idx + 2)
        ((out.set idx v1).set (idx + 1) v2)

/-- `nanolog_decode` (src/nanolog.cpp:63-88).  `in_orig` is the encoded
input buffer parameter — the code never reads it, because the local read
cursor is initialized from itself; `junk` is the indeterminate memory that
cursor points at; `out0` is the initial contents of the caller's output
buffer of `uint64_t`s.  For an odd `count` the code takes its `TwoNibbles`
from the *output* cursor (src/nanolog.cpp:83): it reads the length from
the high nibble of the low byte of `out[count-1]` and stores the unpacked
value back into that 4-bit field, leaving the rest of the word intact. -/
def nanolog_decode (in_orig : List Nat) (count : Nat) (junk : Nat → Nat)
    (out0 : List Nat) : List Nat :=
  let r := nanolog_decodePairs junk (count / 2) 0 0 out0
  if 2 * (count / 2) = count then r.1
  else
    let b := r.1.getD (count - 1) 0
    let n1 := b % 256 / 16
    let v := readLE junk r.2 n1
    r.1.set (count - 1) (b / 256 * 256 + b % 16 + v % 16 * 16)

example : nanolog_encode [5] (fun _ => 0) = [16, 5] := by decide
example : nanolog_encode [1, 2] (fun _ => 0) = [17, 1, 2] := by decide
example : nanolog_decode [16, 5] 1 (fun _ => 0) [0] = [0] := by decide
example : nanolog_decode [17, 1, 2] 2 (fun _ => 0) [7, 7] = [0, 0] := by decide

/-!
The other four codecs named by the spec (`leb128.cpp`, the PrefixVarint
and the two leSQLite sources) are not among the repository sources; only
their descriptors are used by `src/varint.cpp`.  They are modelled from
the spec, §4.2-§4.5.
-/

/-- Modelled from the spec (§4.2): LEB128 bytes of one value — emit the
low 7 bits with the continuation bit `0x80` set while the remaining value
exceeds 127, then the final ≤7 bits with the continuation bit clear.
`leb128.cpp` is not among the repository sources. -/
def leb128Bytes (v : Nat) : List Nat :=
  if h : v < 128 then [v] else (v % 128 + 128) :: leb128Bytes (v / 128)
termination_by v
decreasing_by exact Nat.div_lt_self (by omega) (by omega)

/-- Modelled from the spec (§4.2): LEB128 encoding of a sequence. -/
def leb128Encode (s : List Nat) : List Nat :=
  (s.map fun v => leb128Bytes (u64 v)).flatten

/-- Modelled from the spec (§4.2): read one LEB128 value — accumulate
7-bit groups at increasing shifts until a byte with the continuation bit
clear; returns the value and the remaining bytes. -/
def leb128ReadOne : List Nat → Nat × List Nat
  | [] => (0, [])
  | b :: bs =>
      if b % 256 < 128 then (b % 256, bs)
      else
        let r := leb128ReadOne bs
        (b % 128 + 128 * r.1, r.2)

/-- Modelled from the spec (§4.2): LEB128 decode of `count` values. -/
def leb128Decode : List Nat → Nat → List Nat
  | _, 0 => []
  | bs, n + 1 =>
      let r := leb128ReadOne bs
      r.1 :: leb128Decode r.2 n

/-- Modelled from the spec (§4.3): the PrefixVarint byte count `k`
(1..9) for a value — minimal `k` whose `7 k` payload bits hold the value,
saturating at 9 bytes for the largest 64-bit values. -/
def pvarintLen (w : Nat) : Nat :=
  if w < 2 ^ 7 then 1
  else if w < 2 ^ 14 then 2
  else if w < 2 ^ 21 then 3
  else if w < 2 ^ 28 then 4
  else if w < 2 ^ 35 then 5
  else if w < 2 ^ 42 then 6
  else if w < 2 ^ 49 then 7
  else if w < 2 ^ 56 then 8
  else 9

/-- Modelled from the spec (§4.3): PrefixVarint bytes of one value — the
first byte carries a run of `k-1` set bits then a clear bit in its low
bits and the value's lowest `8-k` bits above them; the following `k-1`
bytes carry the remaining value bits, least significant first.  For
`k = 9` the first byte is all ones and 8 full bytes follow. -/
def pvarintBytes (v : Nat) : List Nat :=
  let w := u64 v
  let k := pvarintLen w
  if k = 9 then 255 :: leBytes w 8
  else (2 ^ (k - 1) - 1 + w % 2 ^ (8 - k) * 2 ^ k) :: leBytes (w / 2 ^ (8 - k)) (k - 1)

/-- Modelled from the spec (§4.3): PrefixVarint encoding of a sequence. -/
def pvarintEncode (s : List Nat) : List Nat := (s.map pvarintBytes).flatten

/-- Number of consecutive set bits at the bottom of a byte (the unary
length tag of PrefixVarint's first byte). -/
def lowOnes (b : Nat) : Nat :=
  if h : b % 2 = 1 then 1 + lowOnes (b / 2) else 0
termination_by b
decreasing_by exact Nat.div_lt_self (by omega) (by omega)

/-- Modelled from the spec (§4.3): read one PrefixVarint value — count
the leading set bits of the first byte to recover `k`, take the remaining
bits of the first byte and concatenate the following `k-1` bytes. -/
def pvarintReadOne : List Nat → Nat × List Nat
  | [] => (0, [])
  | b :: rest =>
      let b := b % 256
      if b = 255 then (fromLE (rest.take 8), rest.drop 8)
      else
        let k := lowOnes b + 1
        (b / 2 ^ k + 2 ^ (8 - k) * fromLE (rest.take (k - 1)), rest.drop (k - 1))

/-- Modelled from the spec (§4.3): PrefixVarint decode of `count`
values. -/
def pvarintDecode : List Nat → Nat → List Nat
  | _, 0 => []
  | bs, n + 1 =>
      let r := pvarintReadOne bs
      r.1 :: pvarintDecode r.2 n

/-- Modelled from the spec (§4.4): leSQLite bytes of one value — the
first byte dispatches among fixed-size buckets (small values in one byte,
a 2-byte range, then a length byte followed by the raw little-endian
value); boundaries follow the spec's description with small values below
185 in a single byte and at most 9 bytes total. -/
def lesqliteBytes (v : Nat) : List Nat :=
  let w := u64 v
  if w < 185 then [w]
  else if w < 16569 then [185 + (w - 185) / 256, (w - 185) % 256]
  else
    let n := max 3 (byteLen w)
    (246 + n) :: leBytes w n

/-- Modelled from the spec (§4.4): leSQLite encoding of a sequence. -/
def lesqliteEncode (s : List Nat) : List Nat := (s.map lesqliteBytes).flatten

/-- Modelled from the spec (§4.4): read one leSQLite value by dispatching
on the first byte's range. -/
def lesqliteReadOne : List Nat → Nat × List Nat
  | [] => (0, [])
  | b :: rest =>
      let b := b % 256
      if b < 185 then (b, rest)
      else if b < 249 then (185 + 256 * (b - 185) + rest.headD 0 % 256, rest.drop 1)
      else (fromLE (rest.take (b - 246)), rest.drop (b - 246))

/-- Modelled from the spec (§4.4): leSQLite decode of `count` values. -/
def lesqliteDecode : List Nat → Nat → List Nat
  | _, 0 => []
  | bs, n + 1 =>
      let r := lesqliteReadOne bs
      r.1 :: lesqliteDecode r.2 n

/-- Modelled from the spec (§4.5): leSQLite2 bytes of one value — the
same structure as leSQLite with different bucket boundaries (finer
grained in the 1-2 byte range): one byte below 178, a 2-byte range up to
`178 + 64·256`, then a length byte and the raw little-endian value. -/
def lesqlite2Bytes (v : Nat) : List Nat :=
  let w := u64 v
  if w < 178 then [w]
  else if w < 16562 then [178 + (w - 178) / 256, (w - 178) % 256]
  else
    let n := max 3 (byteLen w)
    (239 + n) :: leBytes w n

/-- Modelled from the spec (§4.5): leSQLite2 encoding of a sequence. -/
def lesqlite2Encode (s : List Nat) : List Nat := (s.map lesqlite2Bytes).flatten

/-- Modelled from the spec (§4.5): read one leSQLite2 value. -/
def lesqlite2ReadOne : List Nat → Nat × List Nat
  | [] => (0, [])
  | b :: rest =>
      let b := b % 256
      if b < 178 then (b, rest)
      else if b < 242 then (178 + 256 * (b - 178) + rest.headD 0 % 256, rest.drop 1)
      else (fromLE (rest.take (b - 239)), rest.drop (b - 239))

/-- Modelled from the spec (§4.5): leSQLite2 decode of `count` values. -/
def lesqlite2Decode : List Nat → Nat → List Nat
  | _, 0 => []
  | bs, n + 1 =>
      let r := lesqlite2ReadOne bs
      r.1 :: lesqlite2Decode r.2 n

/-!
Model of `read_test_vector` (src/varint.cpp:73-96).  The stream is a list
of characters plus the accumulated vector.  `fscanf(f, "%" SCNu64 "\n",
&val)` skips leading whitespace, then matches an *optionally signed*
decimal integer (C11 7.21.6.2, with `strtoul` semantics: a leading `+` or
`-` sign is accepted, and `-` negates the converted value in the unsigned
type).  At end of input it returns `EOF`; at a digit, or a sign followed
by a digit, it consumes the number (reducing its value to `uint64_t`) and
the following whitespace (the `"\n"` directive) and returns 1; otherwise
it returns 0 — a matching failure, which the loop body leaves entirely
unhandled.  On a matching failure the input item read so far (a lone
sign, when one was present) stays consumed and only the offending
character is left unread.  `exit(1)` with `perror` is reached only when
`ferror(f)` reports a stream I/O error, which reading well-defined
in-memory contents never raises, so the model's step never aborts.
-/

/-- Whitespace for `fscanf`'s skip. -/
def isWs (c : Char) : Bool := c = ' ' || c = '\n' || c = '\t' || c = '\r'

/-- Value of a decimal digit run. -/
def digitsToNat (ds : List Char) : Nat :=
  ds.foldl (fun a c => 10 * a + (c.toNat - 48)) 0

/-- Result of one `fscanf(f, "%" SCNu64 "\n", &val)` call. -/
inductive ScanResult where
  | ok (v : Nat) (rest : List Char)
  | eofHit
  | nomatch (rest : List Char)
deriving DecidableEq

/-- One `fscanf` call on the remaining stream contents.  The `u`
conversion matches an optionally signed decimal integer: after the
whitespace skip, a digit run — possibly preceded by one `+` or `-` sign —
converts with `rc == 1`, a `-` sign negating the value in the unsigned
type; a sign not followed by a digit is a matching failure whose consumed
input item (the sign) is not restored; any other leading character is a
matching failure that consumes nothing further. -/
def scanU64 (s : List Char) : ScanResult :=
  let t := s.dropWhile isWs
  match t with
  | [] => .eofHit
  | c :: t2 =>
      if c.isDigit then
        .ok (u64 (digitsToNat (t.takeWhile Char.isDigit)))
          ((t.dropWhile Char.isDigit).dropWhile isWs)
      else if c = '+' || c = '-' then
        match t2 with
        | [] => .nomatch t2
        | d :: _ =>
            if d.isDigit then
              let mag := u64 (digitsToNat (t2.takeWhile Char.isDigit))
              .ok (if c = '-' then u64 (2 ^ 64 - mag) else mag)
                ((t2.dropWhile Char.isDigit).dropWhile isWs)
            else .nomatch t2
      else .nomatch t

/-- Result of one iteration of the `while (!feof(f))` loop of
`read_test_vector`. -/
inductive StepRes where
  | cont (st : List Char × List Nat)
  | ret (vals : List Nat)
  | abort
deriving DecidableEq

/-- One iteration of the `read_test_vector` loop: `rc == 1` appends the
value, `rc == EOF` with no stream error breaks (the function returns the
vector), and `rc == 0` — a malformed line — matches neither branch of the
code, leaving the stream and the vector as they were.  The `abort` result
(`perror`/`exit(1)`) would require `ferror`, which contents alone never
set. -/
def readStep (st : List Char × List Nat) : StepRes :=
  match scanU64 st.1 with
  | .ok v rest => .cont (rest, st.2 ++ [v])
  | .eofHit => .ret st.2
  | .nomatch rest => .cont (rest, st.2)

/-- Outcome of running the `read_test_vector` loop for at most `fuel`
iterations. -/
inductive RunOutcome where
  | returned (vals : List Nat)
  | aborted
  | spun
deriving DecidableEq

/-- Run the `read_test_vector` loop for at most `fuel` iterations;
`spun` means the loop was still running when the fuel ran out. -/
def readRun : Nat → List Char × List Nat → RunOutcome
  | 0, _ => .spun
  | fuel + 1, st =>
      match readStep st with
      | .cont st2 => readRun fuel st2
      | .ret vs => .returned vs
      | .abort => .aborted

/-- The stream contents of a list of input lines, one per line. -/
def linesJoin (ls : List (List Char)) : List Char :=
  (ls.map fun l => l ++ [Char.ofNat 10]).flatten

example : readRun 3 (linesJoin [['1'], ['2', '3']], []) = .returned [1, 23] := by decide
example : readRun 9 (['x'], []) = .spun := by decide

/-! Helper lemmas. -/

theorem byteLen_pos (w : Nat) : 0 < byteLen w := by
  unfold byteLen; split_ifs <;> omega

theorem byteLen_le_eight (w : Nat) : byteLen w ≤ 8 := by
  unfold byteLen; split_ifs <;> omega

theorem byteLen_lt (w : Nat) (h : w < 2 ^ 64) : w < 256 ^ byteLen w := by
  unfold byteLen; split_ifs <;> norm_num at * <;> omega

theorem byteLen_min (w k : Nat) (hk : 0 < k) (h : w < 2 ^ (8 * k)) :
    byteLen w ≤ k := by
  rcases Nat.lt_or_ge k 8 with hk8 | hk8
  · interval_cases k <;> unfold byteLen <;> split_ifs <;> norm_num at * <;> omega
  · have h8 := byteLen_le_eight w
    omega

theorem leBytes_length (k : Nat) : ∀ w, (leBytes w k).length = k := by
  induction k with
  | zero => intro w; rfl
  | succ k ih => intro w; simp [leBytes, ih]

theorem fromLE_leBytes (k : Nat) : ∀ w, w < 256 ^ k → fromLE (leBytes w k) = w := by
  induction k with
  | zero => intro w hw; interval_cases w; rfl
  | succ k ih =>
      intro w hw
      have hdiv : w / 256 < 256 ^ k := by
        rw [Nat.div_lt_iff_lt_mul (by norm_num)]
        calc w < 256 ^ (k + 1) := hw
        _ = 256 ^ k * 256 := by rw [pow_succ]
      simp only [leBytes, fromLE, ih (w / 256) hdiv]
      omega

theorem packLen_pos (v : Nat) : 0 < packLen v := byteLen_pos _

theorem packLen_le_eight (v : Nat) : packLen v ≤ 8 := byteLen_le_eight _

theorem packBytes_length (v : Nat) : (packBytes v).length = packLen v :=
  leBytes_length _ _

theorem fromLE_packBytes (v : Nat) : fromLE (packBytes v) = u64 v :=
  fromLE_leBytes _ _ (byteLen_lt _ (Nat.mod_lt _ (by norm_num)))

/-- Induction principle following the pairwise recursion of the NanoLog
encoder. -/
def listPairInd {P : List Nat → Prop} (h0 : P []) (h1 : ∀ a, P [a])
    (h2 : ∀ a b rest, P rest → P (a :: b :: rest)) : ∀ s, P s
  | [] => h0
  | [a] => h1 a
  | a :: b :: rest => h2 a b rest (listPairInd h0 h1 h2 rest)

theorem nanolog_encodeGo_length (s : List Nat) :
    ∀ prior off, (nanolog_encodeGo prior s off).length = nanolog_encodeRet s := by
  induction s using listPairInd with
  | h0 => intro prior off; rfl
  | h1 a =>
      intro prior off
      simp [nanolog_encodeGo, nanolog_encodeRet, packBytes_length]
      omega
  | h2 a b rest ih =>
      intro prior off
      simp [nanolog_encodeGo, nanolog_encodeRet, packBytes_length, ih]
      omega

theorem nanolog_encodeRet_le (s : List Nat) : nanolog_encodeRet s ≤ 9 * s.length := by
  induction s using listPairInd with
  | h0 => simp [nanolog_encodeRet]
  | h1 a =>
      have := packLen_le_eight a
      simp [nanolog_encodeRet]; omega
  | h2 a b rest ih =>
      have ha := packLen_le_eight a
      have hb := packLen_le_eight b
      simp [nanolog_encodeRet] at *
      omega

theorem nanolog_encodeGo_even (s : List Nat) (hs : s.length % 2 = 0) :
    ∀ prior off off2, nanolog_encodeGo prior s off = nanolog_encodeGo prior s off2 := by
  induction s using listPairInd with
  | h0 => intro prior off off2; rfl
  | h1 a => simp at hs
  | h2 a b rest ih =>
      intro prior off off2
      have hrest : rest.length % 2 = 0 := by simp at hs; omega
      simp only [nanolog_encodeGo]
      rw [ih hrest prior (off + 1 + packLen a + packLen b) 0,
        ih hrest prior (off2 + 1 + packLen a + packLen b) 0]

theorem u64_lt (v : Nat) : u64 v < 2 ^ 64 := Nat.mod_lt _ (by norm_num)

theorem pow256_eq (k : Nat) : (256 : Nat) ^ k = 2 ^ (8 * k) := by
  rw [Nat.pow_mul]

/-- `n` is the minimal byte length of the 64-bit value `w`: `w` fits in
`n` bytes and in no smaller positive number of bytes. -/
def IsMinByteLen (w n : Nat) : Prop :=
  1 ≤ n ∧ n ≤ 8 ∧ w < 2 ^ (8 * n) ∧ ∀ k, 0 < k → w < 2 ^ (8 * k) → n ≤ k

theorem packLen_isMin (v : Nat) : IsMinByteLen (u64 v) (packLen v) := by
  refine ⟨byteLen_pos _, byteLen_le_eight _, ?_, fun k hk hlt => byteLen_min _ k hk hlt⟩
  have h := byteLen_lt (u64 v) (u64_lt v)
  rwa [pow256_eq] at h

theorem leb128Bytes_le (k : Nat) (hk : 0 < k) :
    ∀ v, v < 128 ^ k → (leb128Bytes v).length ≤ k := by
  induction k with
  | zero => omega
  | succ k ih =>
      intro v hv
      rw [leb128Bytes]
      split_ifs with h
      · simp
      · rcases Nat.eq_zero_or_pos k with rfl | hkpos
        · norm_num at hv; omega
        · have hdiv : v / 128 < 128 ^ k := by
            rw [Nat.div_lt_iff_lt_mul (by norm_num)]
            calc v < 128 ^ (k + 1) := hv
            _ = 128 ^ k * 128 := by rw [pow_succ]
          have := ih hkpos (v / 128) hdiv
          simp only [List.length_cons]
          omega

/-!
Claim theorems for the NanoLog codec of src/nanolog.cpp.
-/

/-- C1: the round-trip invariant `decode(encode(S), len(S)) == S` fails on
the NanoLog codec.  For `S = [5]` the encoder writes `[16, 5]`, but the
decoder — whose read cursor is initialized from itself and which handles
the trailing singleton through the output buffer — leaves an all-zero
output buffer at `[0]`, not `[5]`. -/
theorem nanolog_roundtrip_violation :
    nanolog_decode (nanolog_encode [5] (fun _ => 0)) 1 (fun _ => 0) [0] = [0] ∧
      ([0] : List Nat) ≠ [5] := by decide

/-- C2: for an input sequence of even length, `nanolog_encode` emits, for
each consecutive pair, one header byte whose high nibble is the first
value's minimal byte length and whose low nibble is the second value's
minimal byte length (each 1..8), followed by the first value's and then
the second value's little-endian bytes, exactly their minimal length with
no padding. -/
theorem nanolog_encode_pair_layout (a b : Nat) (rest : List Nat)
    (prior : Nat → Nat) (h : rest.length % 2 = 0) :
    nanolog_encode (a :: b :: rest) prior =
      (16 * packLen a + packLen b) ::
        (packBytes a ++ packBytes b ++ nanolog_encode rest prior) ∧
      IsMinByteLen (u64 a) (packLen a) ∧ IsMinByteLen (u64 b) (packLen b) ∧
      (packBytes a).length = packLen a ∧ fromLE (packBytes a) = u64 a ∧
      (packBytes b).length = packLen b ∧ fromLE (packBytes b) = u64 b := by
  refine ⟨?_, packLen_isMin a, packLen_isMin b, packBytes_length a,
    fromLE_packBytes a, packBytes_length b, fromLE_packBytes b⟩
  simp only [nanolog_encode, nanolog_encodeGo]
  rw [nanolog_encodeGo_even rest h prior (0 + 1 + packLen a + packLen b) 0]

/-- Witness for C2 at the concrete even-length input `[3, 300]`. -/
theorem nanolog_encode_pair_layout_witness :
    nanolog_encode [3, 300] (fun _ => 0) =
      (16 * packLen 3 + packLen 300) ::
        (packBytes 3 ++ packBytes 300 ++ nanolog_encode [] fun _ => 0) :=
  (nanolog_encode_pair_layout 3 300 [] (fun _ => 0) (by decide)).1

/-- C3: the decoder's trailing-singleton branch is broken.  For the
single-element input `S = [7]` (encoded as `[16, 7]`), `nanolog_decode`
takes its `TwoNibbles` from the *output* cursor: with `out[0] = 48`
initially it reads length `3` from that word's header nibble, unpacks
three bytes of the indeterminate memory, and stores only the low 4 bits
of the result back into the nibble, producing `[16]` — it never writes
the decoded `u64`, and the round trip fails. -/
theorem nanolog_trailing_singleton_bug :
    nanolog_decode (nanolog_encode [7] (fun _ => 0)) 1 (fun i => i + 1) [48] = [16] ∧
      ([16] : List Nat) ≠ [7] := by decide

/-- C4: `nanolog_decode` never reads the encoded input buffer: its read
cursor is initialized from the local variable itself rather than from the
`in_orig` parameter, so with the indeterminate memory and the output
buffer fixed, the writes it performs are identical for any two input
buffers of any contents. -/
theorem nanolog_decode_ignores_input (b1 b2 : List Nat) (count : Nat)
    (junk : Nat → Nat) (out0 : List Nat) :
    nanolog_decode b1 count junk out0 = nanolog_decode b2 count junk out0 := rfl

/-- C5: `nanolog_decode` does not store a decoded `u64` at every output
position below `count`.  With `count = 3` and an output buffer initially
`[9, 9, 9, 9]`, the pair loop stores positions 0 and 1, but position 2,
the trailing singleton, only has a 4-bit nibble of its first byte
reassigned — here it keeps its initial value 9 — so only 2 of the 3
positions receive a decoded value (position 3, beyond the count, is
untouched, as the claim also states). -/
theorem nanolog_decode_missing_last_write :
    nanolog_decode [17, 1, 2] 3 (fun _ => 0) [9, 9, 9, 9] = [0, 0, 9, 9] := by decide

/-- C6: `nanolog_decode` is not a deterministic function of its
arguments: on the same encoded buffer `[16, 5]`, the same `count = 2` and
the same initial output buffer, its result differs when the indeterminate
memory behind its self-initialized read cursor differs, because every read
goes through that cursor. -/
theorem nanolog_decode_junk_dependent :
    nanolog_decode [16, 5] 2 (fun _ => 0) [7, 7] ≠
      nanolog_decode [16, 5] 2 (fun _ => 1) [7, 7] := by decide

/-- C7: `nanolog_encode` returns exactly the number of bytes of its
output image (the encoder writes the contiguous byte prefix modelled by
`nanolog_encode` and returns `out - out_orig`), and that count is at most
`16 · len(input)` — i.e. within the guaranteed `2×` input byte size. -/
theorem nanolog_encode_return_and_bound (s : List Nat) (prior : Nat → Nat) :
    nanolog_encodeRet s = (nanolog_encode s prior).length ∧
      (nanolog_encode s prior).length ≤ 16 * s.length := by
  have h := nanolog_encodeGo_length s prior 0
  have h2 := nanolog_encodeRet_le s
  unfold nanolog_encode
  refine ⟨h.symm, ?_⟩
  rw [h]
  have hlen : 9 * s.length ≤ 16 * s.length := by omega
  omega

/-- C8: encoding the empty sequence writes zero bytes and decoding with
count 0 writes nothing, for the NanoLog codec of src/nanolog.cpp and for
the spec-modelled LEB128, PrefixVarint, leSQLite and leSQLite2 codecs
whose sources are absent from the repository. -/
theorem codecs_empty_input :
    (∀ prior, nanolog_encode [] prior = [] ∧ nanolog_encodeRet [] = 0) ∧
    (∀ inb junk out0, nanolog_decode inb 0 junk out0 = out0) ∧
    leb128Encode [] = [] ∧ (∀ bs, leb128Decode bs 0 = []) ∧
    pvarintEncode [] = [] ∧ (∀ bs, pvarintDecode bs 0 = []) ∧
    lesqliteEncode [] = [] ∧ (∀ bs, lesqliteDecode bs 0 = []) ∧
    lesqlite2Encode [] = [] ∧ (∀ bs, lesqlite2Decode bs 0 = []) := by
  refine ⟨fun prior => ⟨rfl, rfl⟩, fun inb junk out0 => rfl, rfl, fun bs => rfl,
    rfl, fun bs => rfl, rfl, fun bs => rfl, rfl, fun bs => rfl⟩

/-- C9: the encoded byte length attributable to a single value is at most
9 bytes under every codec (10 for LEB128): `nanolog_encode` emits at most
9 bytes for a single-element sequence and at most `9 · len` bytes overall,
and the spec-modelled per-value encodings obey their 10- and 9-byte
bounds. -/
theorem codecs_single_value_size_bound :
    (∀ v prior, (nanolog_encode [v] prior).length ≤ 9) ∧
    (∀ s prior, (nanolog_encode s prior).length ≤ 9 * s.length) ∧
    (∀ v, (leb128Bytes (u64 v)).length ≤ 10) ∧
    (∀ v, (pvarintBytes v).length ≤ 9) ∧
    (∀ v, (lesqliteBytes v).length ≤ 9) ∧
    (∀ v, (lesqlite2Bytes v).length ≤ 9) := by
  refine ⟨?_, ?_, ?_, ?_, ?_, ?_⟩
  · intro v prior
    have h := nanolog_encodeGo_length [v] prior 0
    have h8 := packLen_le_eight v
    unfold nanolog_encode
    rw [h]
    simp only [nanolog_encodeRet]
    omega
  · intro s prior
    unfold nanolog_encode
    rw [nanolog_encodeGo_length s prior 0]
    exact nanolog_encodeRet_le s
  · intro v
    refine leb128Bytes_le 10 (by norm_num) (u64 v) ?_
    exact lt_of_lt_of_le (u64_lt v) (by norm_num)
  · intro v
    have h9 : pvarintLen (u64 v) ≤ 9 := by unfold pvarintLen; split_ifs <;> omega
    simp only [pvarintBytes]
    split_ifs with h
    · simp [leBytes_length]
    · simp only [List.length_cons, leBytes_length]
      omega
  · intro v
    have h8 := byteLen_le_eight (u64 v)
    have hmax : max 3 (byteLen (u64 v)) ≤ 8 := max_le (by norm_num) h8
    simp only [lesqliteBytes]
    split_ifs
    · simp
    · simp
    · simp only [List.length_cons, leBytes_length]
      omega
  · intro v
    have h8 := byteLen_le_eight (u64 v)
    have hmax : max 3 (byteLen (u64 v)) ≤ 8 := max_le (by norm_num) h8
    simp only [lesqlite2Bytes]
    split_ifs
    · simp
    · simp
    · simp only [List.length_cons, leBytes_length]
      omega

/-! Lemmas about the `read_test_vector` model. -/

theorem digit_not_ws (c : Char) (h : c.isDigit = true) : isWs c = false := by
  unfold isWs
  by_contra hc
  simp only [Bool.not_eq_false, Bool.or_eq_true, decide_eq_true_eq] at hc
  rcases hc with ((h1 | h1) | h1) | h1 <;> subst h1 <;> exact absurd h (by decide)

theorem newline_not_digit : (Char.ofNat 10).isDigit = false := by decide

theorem linesJoin_cons (l : List Char) (ls : List (List Char)) :
    linesJoin (l :: ls) = l ++ Char.ofNat 10 :: linesJoin ls := by
  simp [linesJoin]

theorem takeWhile_digit_line (r : List Char) :
    ∀ l : List Char, (∀ c ∈ l, c.isDigit = true) →
      (l ++ Char.ofNat 10 :: r).takeWhile Char.isDigit = l := by
  intro l
  induction l with
  | nil => intro _; simp [List.takeWhile_cons, newline_not_digit]
  | cons c l2 ih =>
      intro h
      have hc : c.isDigit = true := h c (by simp)
      simp [List.takeWhile_cons, hc, ih fun x hx => h x (by simp [hx])]

theorem dropWhile_digit_line (r : List Char) :
    ∀ l : List Char, (∀ c ∈ l, c.isDigit = true) →
      (l ++ Char.ofNat 10 :: r).dropWhile Char.isDigit = Char.ofNat 10 :: r := by
  intro l
  induction l with
  | nil => intro _; simp [List.dropWhile_cons, newline_not_digit]
  | cons c l2 ih =>
      intro h
      have hc : c.isDigit = true := h c (by simp)
      simp [List.dropWhile_cons, hc, ih fun x hx => h x (by simp [hx])]

theorem linesJoin_no_ws_head (ls : List (List Char))
    (h : ∀ l ∈ ls, l ≠ [] ∧ ∀ c ∈ l, c.isDigit = true) :
    (linesJoin ls).dropWhile isWs = linesJoin ls := by
  cases ls with
  | nil => rfl
  | cons l ls =>
      obtain ⟨hne, hdig⟩ := h l (by simp)
      cases l with
      | nil => exact absurd rfl hne
      | cons c l2 =>
          have hw : isWs c = false := digit_not_ws c (hdig c (by simp))
          rw [linesJoin_cons]
          simp [List.dropWhile_cons, hw]

theorem scanU64_line (l : List Char) (ls : List (List Char))
    (hne : l ≠ []) (hdig : ∀ c ∈ l, c.isDigit = true)
    (hls : ∀ l2 ∈ ls, l2 ≠ [] ∧ ∀ c ∈ l2, c.isDigit = true) :
    scanU64 (linesJoin (l :: ls)) =
      ScanResult.ok (u64 (digitsToNat l)) (linesJoin ls) := by
  cases l with
  | nil => exact absurd rfl hne
  | cons c l2 =>
      have hc : c.isDigit = true := hdig c (by simp)
      have hw : isWs c = false := digit_not_ws c hc
      have hwnl : isWs (Char.ofNat 10) = true := by decide
      have hdig2 : ∀ x ∈ l2, x.isDigit = true := fun x hx => hdig x (by simp [hx])
      have htake := takeWhile_digit_line (linesJoin ls) l2 hdig2
      have hdrop := dropWhile_digit_line (linesJoin ls) l2 hdig2
      rw [linesJoin_cons]
      unfold scanU64
      simp [List.cons_append, List.dropWhile_cons, List.takeWhile_cons, hw, hc,
        htake, hdrop, hwnl, linesJoin_no_ws_head ls hls]

